import Mathlib

/-!
Verification of the tar export core (src/services/export/tar.js).

The development shallowly embeds the export pipeline: the recursive manifest
builder (`getNote` in the source, `getNoteB` here, with an explicit recursion
fuel replacing the unbounded JS recursion), the per-directory filename
uniquification (`getUniqueFilename`), the data-filename extension logic
(`getDataFileName`), the cross-reference filter pass, the archive emitter
(`saveNote`), and the top-level `exportToTar` driver.

JS mutable objects are modelled by explicit state threading: the
`existingFileNames` object becomes an association list from lowercased name to
counter, the `noteIdToMeta` registry becomes the list of registered note ids
plus the manifest tree itself, and `notePaths` becomes an association list
from note id to emitted path.

External libraries used by the source are modelled as follows: the
sanitize-filename library as a character filter (`sanitize`), the mime-types
extension lookup as a small table (`mimeExtension`), the turndown and html
pretty-printing converters and JSON.stringify as opaque function parameters.
JS strings are modelled as Lean strings; the JS `length`, `toLowerCase` and
`endsWith` operations as `String.length`, `jsToLower` and `jsEndsWith`.
-/

namespace TarExport

/-- Models the JS `String.prototype.toLowerCase` (character-wise lowering). -/
def jsToLower (s : String) : String := String.mk (s.data.map Char.toLower)

/-- Models the JS `String.prototype.endsWith`. -/
def jsEndsWith (s suffixStr : String) : Bool := suffixStr.data.isSuffixOf s.data

/-- An attribute record as captured by the builder (type, name, value,
isInheritable, position), mirroring the object literal in `getNote`. -/
structure Attribute where
  type : String
  name : String
  value : String
  isInheritable : Bool
  position : Nat
deriving DecidableEq

/-- A link record as captured by the builder (type, targetNoteId). -/
structure Link where
  type : String
  targetNoteId : String
deriving DecidableEq

/-- A branch: an edge from a parent context to a child note. `pfx` models the
source field `prefix` (a keyword in Lean); `none` models a null prefix. -/
structure Branch where
  noteId : String
  pfx : Option String
  isExpanded : Bool
deriving DecidableEq

/-- A note as provided by the persistence layer: identity, title, type, mime,
content, labels (for `hasLabel`), owned attributes, links, child branches. -/
structure Note where
  noteId : String
  title : String
  type : String
  mime : String
  content : String
  labels : List String
  attributes : List Attribute
  links : List Link
  childBranches : List Branch
deriving DecidableEq

/-- Models `repository.getNote` / `branch.getNote`: lookup in the database,
taken to be the first note with the requested id. -/
def findNote (db : List Note) (noteId : String) : Option Note :=
  db.find? (fun n => n.noteId == noteId)

/-- The `existingFileNames` JS object: a finite map from lowercased file name
to the next numeric suffix counter, modelled as an association list. -/
abbrev Table := List (String × Nat)

/-- Membership test modelling the JS `in` operator on the names object. -/
def tMem (t : Table) (k : String) : Bool := t.any (fun kv => kv.1 == k)

/-- Value lookup on the names object (0 is never stored, so the default is
irrelevant on keys that are present). -/
def tGet (t : Table) (k : String) : Nat := ((t.find? (fun kv => kv.1 == k)).map (fun kv => kv.2)).getD 0

/-- Assignment `t[k] = v` on the names object. -/
def tSet : Table → String → Nat → Table
  | [], k, v => [(k, v)]
  | kv :: rest, k, v => if kv.1 == k then (k, v) :: rest else kv :: tSet rest k v

/-- The do-while loop of `getUniqueFilename`: repeatedly take the counter for
`lc` (post-incrementing it) until `lc ++ "_" ++ index` is not itself a key.
The JS loop always exits because the counter strictly increases while the key
set stays fixed; `fuel` bounds the iteration count and is passed as one more
than the table size, which exceeds the number of possible collisions. -/
def collisionLoop (lc : String) : Nat → Table → Nat × Table
  | fuel, t =>
    let index := tGet t lc
    let t1 := tSet t lc (index + 1)
    let newName := lc ++ "_" ++ Nat.repr index
    if tMem t1 newName then
      match fuel with
      | 0 => (index, t1)
      | fuel1 + 1 => collisionLoop lc fuel1 t1
    else (index, t1)

/-- Models `getUniqueFilename(existingFileNames, fileName)` from the source:
returns the chosen name and the updated names object. On first use of a
lowercased name it is reserved as-is with counter 1; on collision the suffix
`_<index>` is appended to the original-case name. Note that the source does
not add the suffixed result to the object. -/
def getUniqueFilename (existingFileNames : Table) (fileName : String) : String × Table :=
  let lcFileName := jsToLower fileName
  if tMem existingFileNames lcFileName then
    let r := collisionLoop lcFileName (existingFileNames.length + 1) existingFileNames
    (fileName ++ "_" ++ Nat.repr r.1, r.2)
  else
    (fileName, tSet existingFileNames lcFileName 1)

/-- Modelled from the mime-types library (external dependency): extension
lookup for the mime types exercised here; unknown mimes yield `none`, on
which the source falls back to `"dat"`. -/
def mimeExtension (mime : String) : Option String :=
  if mime = "text/html" then some "html"
  else if mime = "text/plain" then some "txt"
  else if mime = "image/png" then some "png"
  else none

/-- Models `getDataFileName(note, baseFileName, existingFileNames)`: choose an
extension (md for text notes under markdown format, js for the JavaScript
mime, otherwise the conventional extension with fallback "dat"), append it
unless it is already a case-insensitive suffix of the candidate, and uniquify. -/
def getDataFileName (format : String) (note : Note) (baseFileName : String)
    (existingFileNames : Table) : String × Table :=
  let extension :=
    if note.type = "text" ∧ format = "markdown" then "md"
    else if note.mime = "application/x-javascript" then "js"
    else (mimeExtension note.mime).getD "dat"
  let fileName :=
    if jsEndsWith (jsToLower baseFileName) extension then baseFileName
    else baseFileName ++ "." ++ extension
  getUniqueFilename existingFileNames fileName

/-- Modelled from the sanitize-filename library (external dependency): strips
the characters the library replaces (filesystem-illegal and control
characters). The library also truncates overlong names and rewrites reserved
Windows names; those cases are not exercised by the exported titles here. -/
def sanitize (s : String) : String :=
  String.mk (s.data.filter (fun c =>
    !(c = '/' ∨ c = '?' ∨ c = '<' ∨ c = '>' ∨ c = '\\' ∨ c = ':' ∨ c = '*' ∨ c = '|' ∨ c = '"'
      ∨ c.toNat < 32 ∨ (128 ≤ c.toNat ∧ c.toNat ≤ 159))))

/-- Models `branch.prefix ? (branch.prefix + " - " + note.title) : note.title`
(an empty-string prefix is falsy in JS). -/
def baseFileNameOf (pfx : Option String) (title : String) : String :=
  match pfx with
  | some p => if p = "" then title else p ++ " - " ++ title
  | none => title

/-- A manifest node. `clone` models the stub object built for an already
registered note id; `full` models the full metadata object. Optional fields
absent on the JS object are `none`; a note without child branches carries
`dirFileName = none` and an empty `children` list. -/
inductive NoteMeta where
  | clone (noteId : String) (pfx : Option String) (dataFileName : String)
  | full (noteId : String) (title : String) (pfx : Option String) (isExpanded : Bool)
      (type : String) (mime : String) (attributes : List Attribute) (links : List Link)
      (format : Option String) (dataFileName : Option String) (dirFileName : Option String)
      (children : List NoteMeta)

/-- Errors of the embedded pipeline: `outOfFuel` marks exhaustion of the
explicit recursion bound (the JS recursion has no such bound), `noteMissing`
marks a failed repository lookup (where the JS would throw). -/
inductive ExpErr where
  | outOfFuel
  | noteMissing
deriving DecidableEq

/-- Sequential processing of the child branches of `getNote` (lines 132-139 of
the source): each child is handled by `f` (the recursive call), threading the
names object and the registry through, and dropping children for which export
is disabled (`f` yields no node). -/
def goChildren (f : Branch → Table → List String → Except ExpErr (Option NoteMeta × Table × List String)) :
    List Branch → Table → List String → Except ExpErr (List NoteMeta × Table × List String)
  | [], t, ids => .ok ([], t, ids)
  | b :: bs, t, ids =>
    match f b t ids with
    | .error e => .error e
    | .ok (m?, t1, ids1) =>
      match goChildren f bs t1 ids1 with
      | .error e => .error e
      | .ok (ms, t2, ids2) =>
        .ok ((match m? with | some m => m :: ms | none => ms), t2, ids2)

/-- Models the recursive `getNote(branch, existingFileNames)` builder. The
state is the names object `existingFileNames` plus `ids`, the key list of the
`noteIdToMeta` registry (the registered metadata objects themselves are the
full nodes of the returned tree, so only the keys need threading). `none` in
the returned option models the `undefined` result for an excluded note.
`fuel` bounds the recursion depth; the source recursion is reproduced
verbatim, including passing the parent `existingFileNames` object into the
child calls (the declared `childExistingNames` object on line 130 of the
source is never used). -/
def getNoteB (db : List Note) (format : String) :
    Nat → Branch → Table → List String → Except ExpErr (Option NoteMeta × Table × List String)
  | 0, _, _, _ => .error .outOfFuel
  | fuel + 1, branch, existingFileNames, ids =>
    match findNote db branch.noteId with
    | none => .error .noteMissing
    | some note =>
      if note.labels.contains "excludeFromExport" then
        .ok (none, existingFileNames, ids)
      else
        let baseFileName := baseFileNameOf branch.pfx note.title
        if ids.contains note.noteId then
          let sanitizedFileName := sanitize (baseFileName ++ ".clone")
          let r := getUniqueFilename existingFileNames sanitizedFileName
          .ok (some (.clone note.noteId branch.pfx r.1), r.2, ids)
        else
          let ids1 := ids ++ [note.noteId]
          let childBranches := note.childBranches
          let dk : Option String × Table :=
            if note.content.length > 0 ∨ childBranches.length = 0 then
              let r := getDataFileName format note baseFileName existingFileNames
              (some r.1, r.2)
            else (none, existingFileNames)
          let fmt : Option String := if note.type = "text" then some format else none
          match childBranches with
          | [] =>
            .ok (some (.full note.noteId note.title branch.pfx branch.isExpanded note.type
                note.mime note.attributes note.links fmt dk.1 none []), dk.2, ids1)
          | _ :: _ =>
            let dr := getUniqueFilename dk.2 baseFileName
            match goChildren (getNoteB db format fuel) childBranches dr.2 ids1 with
            | .error e => .error e
            | .ok (children, t3, ids3) =>
              .ok (some (.full note.noteId note.title branch.pfx branch.isExpanded note.type
                  note.mime note.attributes note.links fmt dk.1 (some dr.1) children), t3, ids3)

/-- The builder as called at the top level: `getNote(branch, [])` with an
empty registry. -/
def buildManifest (db : List Note) (format : String) (fuel : Nat) (branch : Branch) :
    Except ExpErr (Option NoteMeta × Table × List String) :=
  getNoteB db format fuel branch [] []

mutual
/-- The Reference Filter pass (lines 196-200 of the source): on every
registered metadata object, keep an attribute unless it is of relation type
with a value outside the registry key list, and keep a link only when its
target is a registry key. The registered objects are exactly the full nodes
of the manifest tree (each full node is stored in `noteIdToMeta` when built),
so the in-place JS mutation is modelled as a structural map over the tree;
clone stubs carry no attributes or links and pass through unchanged. -/
def filterMeta (ids : List String) : NoteMeta → NoteMeta
  | .clone noteId pfx dataFileName => .clone noteId pfx dataFileName
  | .full noteId title pfx isExpanded type mime attributes links format dataFileName dirFileName children =>
    .full noteId title pfx isExpanded type mime
      (attributes.filter (fun attr => !(attr.type == "relation") || ids.contains attr.value))
      (links.filter (fun link => ids.contains link.targetNoteId))
      format dataFileName dirFileName (filterChildren ids children)

/-- `filterMeta` on each child. -/
def filterChildren (ids : List String) : List NoteMeta → List NoteMeta
  | [] => []
  | m :: ms => filterMeta ids m :: filterChildren ids ms
end

/-- An archive entry handed to the tar pack: a file entry with declared size
and content, or a directory entry. The declared size models the JS
`content.length` (the string length), as passed to `pack.entry`. -/
inductive Entry where
  | fileEntry (name : String) (size : Nat) (content : String)
  | dirEntry (name : String)
deriving DecidableEq

/-- Models `prepareContent(note, format)`: pretty-print for html, turndown
conversion for markdown, raw passthrough otherwise. The two converters are
external pure functions and are taken as parameters. -/
def prepareContent (prettyPrintHtml htmlToMarkdown : String → String)
    (content : String) (format : Option String) : String :=
  if format = some "html" then prettyPrintHtml content
  else if format = some "markdown" then htmlToMarkdown content
  else content

/-- The `notePaths` object: note id to emitted path. -/
abbrev PathMap := List (String × String)

/-- Lookup in `notePaths`; a missing key is JS `undefined`, which stringifies
to "undefined" when concatenated. -/
def npGet (np : PathMap) (k : String) : String :=
  (((np.find? (fun kv => kv.1 == k)).map (fun kv => kv.2))).getD "undefined"

/-- Assignment `notePaths[k] = v`. -/
def npSet : PathMap → String → String → PathMap
  | [], k, v => [(k, v)]
  | kv :: rest, k, v => if kv.1 == k then (k, v) :: rest else kv :: npSet rest k v

/-- Models `noteMeta.dataFileName || noteMeta.dirFileName` under JS
truthiness (an empty string or an absent field falls through; an absent
second operand stringifies to "undefined"). -/
def jsNameOr (dataFileName dirFileName : Option String) : String :=
  match dataFileName with
  | some d => if d = "" then dirFileName.getD "undefined" else d
  | none => dirFileName.getD "undefined"

mutual
/-- Models the recursive `saveNote(noteMeta, path)` emitter. Returns the
archive entries written for this subtree, in emission order, together with
the updated `notePaths` map. A clone stub emits one file entry whose content
is the placeholder "Note is present at " plus the previously recorded path of
the note. A full node refetches the note, records its path (the data file
path if a data file name is present, otherwise the directory path), emits its
data file entry when a data file name is present, and when it has children
emits a directory entry and recurses. -/
def saveNote (db : List Note) (prettyPrintHtml htmlToMarkdown : String → String) :
    NoteMeta → String → PathMap → Except ExpErr (List Entry × PathMap)
  | .clone noteId _pfx dataFileName, path, notePaths =>
    let content := "Note is present at " ++ npGet notePaths noteId
    .ok ([.fileEntry (path ++ "/" ++ dataFileName) content.length content], notePaths)
  | .full noteId _title _pfx _isExpanded _type _mime _attributes _links format dataFileName dirFileName children,
      path, notePaths =>
    match findNote db noteId with
    | none => .error .noteMissing
    | some note =>
      let notePaths1 := npSet notePaths noteId (path ++ "/" ++ jsNameOr dataFileName dirFileName)
      let dataEntries : List Entry :=
        match dataFileName with
        | some d =>
          if d = "" then []
          else
            let content := prepareContent prettyPrintHtml htmlToMarkdown note.content format
            [.fileEntry (path ++ "/" ++ d) content.length content]
        | none => []
      match children with
      | [] => .ok (dataEntries, notePaths1)
      | _ :: _ =>
        let directoryPath := path ++ "/" ++ dirFileName.getD "undefined"
        match saveChildren db prettyPrintHtml htmlToMarkdown children directoryPath notePaths1 with
        | .error e => .error e
        | .ok (entries, notePaths2) =>
          .ok (dataEntries ++ Entry.dirEntry directoryPath :: entries, notePaths2)

/-- `saveNote` over a child list, threading `notePaths` and concatenating the
emitted entries in order. -/
def saveChildren (db : List Note) (prettyPrintHtml htmlToMarkdown : String → String) :
    List NoteMeta → String → PathMap → Except ExpErr (List Entry × PathMap)
  | [], _, notePaths => .ok ([], notePaths)
  | m :: ms, path, notePaths =>
    match saveNote db prettyPrintHtml htmlToMarkdown m path notePaths with
    | .error e => .error e
    | .ok (es, np1) =>
      match saveChildren db prettyPrintHtml htmlToMarkdown ms path np1 with
      | .error e => .error e
      | .ok (es2, np2) => .ok (es ++ es2, np2)
end

/-- Models `(branch.prefix ? (branch.prefix + " - ") : "")` as used for the
top-level tar file name. -/
def prefixDash (pfx : Option String) : String :=
  match pfx with
  | some p => if p = "" then "" else p ++ " - "
  | none => ""

/-- The observable outcome of `exportToTar`: the HTTP status sent, the tar
file name announced in the Content-Disposition header (absent on the empty
export), and the archive entries written to the pack, in order. -/
structure ExportOutput where
  status : Nat
  tarFileName : Option String
  entries : List Entry
deriving DecidableEq

/-- Models `exportToTar(branch, format, res)`: build the manifest from the
root branch with an empty names object, run the Reference Filter over the
registered metadata, and either answer 400 with no entries (root excluded
from export) or emit the meta file entry first, then the content entries of
the manifest walk, and answer 200 with the sanitized tar file name.
`stringifyMetaFile` stands for `JSON.stringify({version: 1, files: [root]},
null, tab)`, an external serialization taken as an opaque parameter; the
length of the produced string is the declared size of the meta entry. -/
def exportToTar (db : List Note) (format : String) (stringifyMetaFile : NoteMeta → String)
    (prettyPrintHtml htmlToMarkdown : String → String) (fuel : Nat) (branch : Branch) :
    Except ExpErr ExportOutput :=
  match buildManifest db format fuel branch with
  | .error e => .error e
  | .ok (rootMeta?, _t, ids) =>
    match rootMeta? with
    | none => .ok ⟨400, none, []⟩
    | some rootMeta =>
      let filtered := filterMeta ids rootMeta
      let metaFileJson := stringifyMetaFile filtered
      match saveNote db prettyPrintHtml htmlToMarkdown filtered "" [] with
      | .error e => .error e
      | .ok (entries, _np) =>
        match findNote db branch.noteId with
        | none => .error .noteMissing
        | some note =>
          let tarFileName := sanitize (prefixDash branch.pfx ++ note.title)
          .ok ⟨200, some (tarFileName ++ ".tar"),
            .fileEntry "!!!meta.json" metaFileJson.length metaFileJson :: entries⟩

/-- Observation: the data file name of a manifest node (clone stubs always
carry one). -/
def NoteMeta.dataFileNameOf : NoteMeta → Option String
  | .clone _ _ d => some d
  | .full _ _ _ _ _ _ _ _ _ d _ _ => d

/-- Observation: the directory file name of a manifest node. -/
def NoteMeta.dirFileNameOf : NoteMeta → Option String
  | .clone _ _ _ => none
  | .full _ _ _ _ _ _ _ _ _ _ d _ => d

/-- Observation: the children of a manifest node. -/
def NoteMeta.childrenOf : NoteMeta → List NoteMeta
  | .clone _ _ _ => []
  | .full _ _ _ _ _ _ _ _ _ _ _ c => c

/-- Observation: the note id of a manifest node. -/
def NoteMeta.noteIdOf : NoteMeta → String
  | .clone n _ _ => n
  | .full n _ _ _ _ _ _ _ _ _ _ _ => n

/-- Observation: the attributes of a manifest node (clone stubs carry none). -/
def NoteMeta.attributesOf : NoteMeta → List Attribute
  | .clone _ _ _ => []
  | .full _ _ _ _ _ _ a _ _ _ _ _ => a

/-- Observation: the links of a manifest node (clone stubs carry none). -/
def NoteMeta.linksOf : NoteMeta → List Link
  | .clone _ _ _ => []
  | .full _ _ _ _ _ _ _ l _ _ _ _ => l

/-- Observation: whether a manifest node is a clone stub. -/
def NoteMeta.isCloneOf : NoteMeta → Bool
  | .clone _ _ _ => true
  | .full _ _ _ _ _ _ _ _ _ _ _ _ => false

mutual
/-- All nodes of a manifest tree in depth-first preorder. -/
def NoteMeta.nodesList : NoteMeta → List NoteMeta
  | .clone noteId pfx d => [.clone noteId pfx d]
  | .full noteId title pfx isExpanded type mime attributes links format dataFileName dirFileName children =>
    .full noteId title pfx isExpanded type mime attributes links format dataFileName dirFileName children
      :: nodesChildren children

/-- `nodesList` over a child list. -/
def nodesChildren : List NoteMeta → List NoteMeta
  | [] => []
  | m :: ms => m.nodesList ++ nodesChildren ms
end

mutual
/-- Erase the attribute and link lists everywhere in a manifest tree; two
trees with equal `stripRefs` images agree on every other field. -/
def stripRefs : NoteMeta → NoteMeta
  | .clone noteId pfx d => .clone noteId pfx d
  | .full noteId title pfx isExpanded type mime _ _ format dataFileName dirFileName children =>
    .full noteId title pfx isExpanded type mime [] [] format dataFileName dirFileName
      (stripRefsChildren children)

/-- `stripRefs` over a child list. -/
def stripRefsChildren : List NoteMeta → List NoteMeta
  | [] => []
  | m :: ms => stripRefs m :: stripRefsChildren ms
end

mutual
/-- The note ids of the full (non-clone) nodes of a manifest tree. -/
def fullIdsOf : NoteMeta → List String
  | .clone _ _ _ => []
  | .full noteId _ _ _ _ _ _ _ _ _ _ children => noteId :: fullIdsChildren children

/-- `fullIdsOf` over a child list. -/
def fullIdsChildren : List NoteMeta → List String
  | [] => []
  | m :: ms => fullIdsOf m ++ fullIdsChildren ms
end

/-- The number of database notes whose id is not yet registered: an upper
bound on how much deeper the builder can recurse from a state with registry
keys `ids`. -/
def newNotes (db : List Note) (ids : List String) : Nat :=
  (db.filter (fun n => decide (n.noteId ∉ ids))).length

/-- Scenario database for the end-to-end markdown example: text root "Root"
with empty content and two text children "A" (content "hi") and "a"
(content "bye"). -/
def db3 : List Note :=
  [⟨"root", "Root", "text", "text/html", "", [], [], [],
      [⟨"nA", none, false⟩, ⟨"na", none, false⟩]⟩,
   ⟨"nA", "A", "text", "text/html", "hi", [], [], [], []⟩,
   ⟨"na", "a", "text", "text/html", "bye", [], [], [], []⟩]

/-- The root branch of `db3`. -/
def brRoot3 : Branch := ⟨"root", none, false⟩

/-- Scenario database: root "R" whose single child is also titled "R" and has
a child of its own, so that both parent and child need a directory name. -/
def dbNested : List Note :=
  [⟨"idR", "R", "text", "text/html", "", [], [], [], [⟨"idC", none, false⟩]⟩,
   ⟨"idC", "R", "text", "text/html", "", [], [], [], [⟨"idG", none, false⟩]⟩,
   ⟨"idG", "g", "text", "text/html", "x", [], [], [], []⟩]

/-- The root branch of `dbNested`. -/
def brNested : Branch := ⟨"idR", none, false⟩

/-- Scenario database: root "R" with three children titled "A", "a" and
"a_1", each a directory (one leaf grandchild apiece). -/
def dbTriple : List Note :=
  [⟨"idR", "R", "text", "text/html", "", [], [], [],
      [⟨"idA", none, false⟩, ⟨"ida", none, false⟩, ⟨"ida1", none, false⟩]⟩,
   ⟨"idA", "A", "text", "text/html", "", [], [], [], [⟨"idg1", none, false⟩]⟩,
   ⟨"ida", "a", "text", "text/html", "", [], [], [], [⟨"idg2", none, false⟩]⟩,
   ⟨"ida1", "a_1", "text", "text/html", "", [], [], [], [⟨"idg3", none, false⟩]⟩,
   ⟨"idg1", "g1", "text", "text/html", "x", [], [], [], []⟩,
   ⟨"idg2", "g2", "text", "text/html", "x", [], [], [], []⟩,
   ⟨"idg3", "g3", "text", "text/html", "x", [], [], [], []⟩]

/-- The root branch of `dbTriple`. -/
def brTriple : Branch := ⟨"idR", none, false⟩

/-- Scenario database: root "R" reaches the note "é" (non-ASCII title) via
two branches, so its second occurrence becomes a clone stub. -/
def dbTwoBranches : List Note :=
  [⟨"idR", "R", "text", "text/html", "", [], [], [],
      [⟨"idE", none, false⟩, ⟨"idE", none, false⟩]⟩,
   ⟨"idE", "é", "text", "text/html", "x", [], [], [], []⟩]

/-- The root branch of `dbTwoBranches`. -/
def brTwo : Branch := ⟨"idR", none, false⟩

/-- Scenario database: a single note carrying the exclusion label. -/
def dbExcluded : List Note :=
  [⟨"idX", "X", "text", "text/html", "x", ["excludeFromExport"], [], [], []⟩]

/-- The root branch of `dbExcluded`. -/
def brExcluded : Branch := ⟨"idX", none, false⟩

/-- Scenario database: a note that is its own child (a branch cycle). -/
def dbCycle : List Note :=
  [⟨"idC", "C", "text", "text/html", "x", [], [], [], [⟨"idC", none, false⟩]⟩]

/-- The root branch of `dbCycle`. -/
def brCycle : Branch := ⟨"idC", none, false⟩

/-- Scenario database: root titled "a/b" (a character the filename sanitizer
strips) with one leaf child. -/
def dbSlash : List Note :=
  [⟨"idS", "a/b", "text", "text/html", "", [], [], [], [⟨"idG", none, false⟩]⟩,
   ⟨"idG", "g", "text", "text/html", "x", [], [], [], []⟩]

/-- The root branch of `dbSlash`. -/
def brSlash : Branch := ⟨"idS", none, false⟩

/-- A text note titled "amd": the title already ends in "md" without a dot. -/
def noteAmd : Note := ⟨"idAmd", "amd", "text", "text/html", "x", [], [], [], []⟩

/-- Database for exercising the path recording of the emitter alone: one
parent note and one target note for a clone child stub. -/
def dbSave : List Note :=
  [⟨"idP", "P", "text", "text/html", "", [], [], [], []⟩]

/-- A full manifest node with no data file name, a directory name "P" and one
clone child, as `saveNote` receives it. -/
def metaSave : NoteMeta :=
  .full "idP" "P" none false "text" "text/html" [] [] (some "markdown") none (some "P")
    [.clone "idQ" none "q.clone"]

/-- A full manifest node like `metaSave` but with a data file name present. -/
def metaSaveData : NoteMeta :=
  .full "idP" "P" none false "text" "text/html" [] [] (some "markdown") (some "P.md") (some "P")
    [.clone "idQ" none "q.clone"]

/-- The directory file names assigned to the children of the manifest root,
the observation the per-directory naming claims are about. -/
def childDirNames (db : List Note) (format : String) (fuel : Nat) (branch : Branch) :
    List (Option String) :=
  match buildManifest db format fuel branch with
  | .ok (some m, _, _) => m.childrenOf.map NoteMeta.dirFileNameOf
  | _ => []

/-- The data file names assigned to the children of the manifest root. -/
def childDataNames (db : List Note) (format : String) (fuel : Nat) (branch : Branch) :
    List (Option String) :=
  match buildManifest db format fuel branch with
  | .ok (some m, _, _) => m.childrenOf.map NoteMeta.dataFileNameOf
  | _ => []

/-- The data and directory file names of the manifest root itself. -/
def rootNames (db : List Note) (format : String) (fuel : Nat) (branch : Branch) :
    Option String × Option String :=
  match buildManifest db format fuel branch with
  | .ok (some m, _, _) => (m.dataFileNameOf, m.dirFileNameOf)
  | _ => (none, none)

/-- The manifest node the builder produces for `dbSlash`. -/
def mSlash : NoteMeta :=
  .full "idS" "a/b" none false "text" "text/html" [] [] (some "markdown") none (some "a/b")
    [.full "idG" "g" none false "text" "text/html" [] [] (some "markdown") (some "g.md") none []]

/-- The names object after building `dbSlash`. -/
def tSlash : Table := [("a/b", 1), ("g.md", 1)]

/-- The registered ids after building `dbSlash`. -/
def idsSlash : List String := ["idS", "idG"]

/-- C1: the source passes the PARENT names object into the child recursion
(`getNote(childBranch, existingFileNames)` on line 133), although line 130
declares a fresh `childExistingNames` object that is never used. In
`dbNested` the child is titled like the root ("R"), so its directory name is
uniquified against the name already assigned in the parent directory and
becomes "R_1"; with the fresh per-directory table the claim describes it
would have been "R". -/
theorem claim_C1 :
    rootNames dbNested "markdown" 10 brNested = (none, some "R")
    ∧ childDirNames dbNested "markdown" 10 brNested = [some "R_1"]
    ∧ "R_1" ≠ "R" := by
  refine ⟨rfl, rfl, by decide⟩

/-- C2: sibling names are NOT always case-insensitively unique. The suffixed
name produced on a collision is never recorded in the names object, so in
`dbTriple` the children titled "A", "a" and "a_1" receive directory names
"A", "a_1" and again "a_1": the last two collide exactly. -/
theorem claim_C2 :
    childDirNames dbTriple "markdown" 20 brTriple = [some "A", some "a_1", some "a_1"]
    ∧ ¬ (["A", "a_1", "a_1"].map jsToLower).Nodup := by
  refine ⟨rfl, by decide⟩

/-- C3 (counterexample): in the markdown export of `db3` (root "Root" with
children "A" and "a") the second child does NOT get dataFileName "a_1.md" as
the claim states: the collision suffix is appended after the extension. -/
theorem claim_C3_counterexample :
    childDataNames db3 "markdown" 10 brRoot3 ≠ [some "A.md", some "a_1.md"] := by
  decide

/-- C3 (amended): in the markdown export of `db3`, the root manifest node
gets dirFileName "Root" and no dataFileName, child "A" gets dataFileName
"A.md", and child "a" (case-insensitive collision with "A.md") gets
dataFileName "a.md_1" — the collision suffix `_1` is appended to the full
candidate name, after the extension. -/
theorem claim_C3 :
    rootNames db3 "markdown" 10 brRoot3 = (none, some "Root")
    ∧ childDataNames db3 "markdown" 10 brRoot3 = [some "A.md", some "a.md_1"] := by
  refine ⟨rfl, rfl⟩

/-- C7: the clone stub entry for the second occurrence of note "é" in
`dbTwoBranches` has exactly the placeholder content
"Note is present at /R/é.md" (the emitted path of the first occurrence), but
its declared size is the JS string length 26 of that placeholder, while the
byte length of the placeholder is 27: the declared size is NOT the byte
length for a non-ASCII path, so the tar size field is wrong there. -/
theorem claim_C7 :
    exportToTar dbTwoBranches "markdown" (fun _ => "") (fun s => s) (fun s => s) 20 brTwo
      = .ok ⟨200, some "R.tar",
          [.fileEntry "!!!meta.json" 0 "",
           .dirEntry "/R",
           .fileEntry "/R/é.md" 1 "x",
           .fileEntry "/R/é.clone" 26 "Note is present at /R/é.md"]⟩
    ∧ "Note is present at /R/é.md".length = 26
    ∧ "Note is present at /R/é.md".utf8ByteSize = 27 := by
  refine ⟨rfl, by decide, by decide⟩

/-- C6: when the root note carries the exclusion label, the export is the
first-class empty result: status 400, no Content-Disposition file name, and
no archive entries at all (not even the meta file entry), for every database,
format, serializer, converter pair and positive recursion bound. -/
theorem claim_C6 (db : List Note) (format : String) (stringifyMetaFile : NoteMeta → String)
    (prettyPrintHtml htmlToMarkdown : String → String) (fuel : Nat) (branch : Branch)
    (note : Note)
    (hfuel : 0 < fuel)
    (hfind : findNote db branch.noteId = some note)
    (hlabel : note.labels.contains "excludeFromExport" = true) :
    exportToTar db format stringifyMetaFile prettyPrintHtml htmlToMarkdown fuel branch
      = .ok ⟨400, none, []⟩ := by
  obtain ⟨fuel1, rfl⟩ : ∃ fuel1, fuel = fuel1 + 1 := ⟨fuel - 1, by omega⟩
  have hmem : "excludeFromExport" ∈ note.labels := List.elem_iff.mp hlabel
  simp [exportToTar, buildManifest, getNoteB, hfind, hmem]

/-- Witness for C6 at the concrete database `dbExcluded`. -/
theorem claim_C6_witness :
    0 < 5
    ∧ findNote dbExcluded brExcluded.noteId
        = some ⟨"idX", "X", "text", "text/html", "x", ["excludeFromExport"], [], [], []⟩
    ∧ (["excludeFromExport"] : List String).contains "excludeFromExport" = true
    ∧ exportToTar dbExcluded "markdown" (fun _ => "") (fun s => s) (fun s => s) 5 brExcluded
        = .ok ⟨400, none, []⟩ := by
  refine ⟨by decide, rfl, by decide, ?_⟩
  exact claim_C6 dbExcluded "markdown" (fun _ => "") (fun s => s) (fun s => s) 5 brExcluded
    ⟨"idX", "X", "text", "text/html", "x", ["excludeFromExport"], [], [], []⟩
    (by decide) rfl (by decide)

/-- Lowercasing distributes over string concatenation. -/
theorem jsToLower_append (a b : String) : jsToLower (a ++ b) = jsToLower a ++ jsToLower b := by
  show String.mk _ = String.mk _ ++ String.mk _
  rw [show String.mk (a.data.map Char.toLower) ++ String.mk (b.data.map Char.toLower)
      = String.mk (a.data.map Char.toLower ++ b.data.map Char.toLower) from rfl]
  rw [String.data_append, List.map_append]

/-- A string always ends with a suffix just appended to it. -/
theorem jsEndsWith_append (y s : String) : jsEndsWith (y ++ s) s = true := by
  simp [jsEndsWith, List.isSuffixOf_iff_suffix, String.data_append]

/-- The name returned by `getUniqueFilename` is the candidate itself or the
candidate with a numeric suffix `_<k>` appended. -/
theorem getUniqueFilename_shape (t : Table) (f : String) :
    (getUniqueFilename t f).1 = f ∨ ∃ k, (getUniqueFilename t f).1 = f ++ "_" ++ Nat.repr k := by
  unfold getUniqueFilename
  by_cases h : tMem t (jsToLower f) = true
  · simp only [h, if_true]
    exact Or.inr ⟨_, rfl⟩
  · simp only [h]
    simp

/-- C9 (counterexample): for the text note titled "amd" under markdown
format, the assigned data file name is "amd", which does not end with ".md"
even case-insensitively — the source checks for the suffix "md" without the
dot, so no extension is appended. -/
theorem claim_C9_counterexample :
    (getDataFileName "markdown" noteAmd "amd" []).1 = "amd"
    ∧ jsEndsWith (jsToLower "amd") ".md" = false := by
  exact ⟨rfl, by decide⟩

/-- C9 (amended): for every text note under markdown format, the assigned
data file name ends case-insensitively with "md" (not necessarily ".md"),
possibly followed by a collision suffix `_<k>`: the dot-extension ".md" is
appended exactly when "md" is not already a case-insensitive suffix of the
candidate name. -/
theorem claim_C9 (format : String) (note : Note) (baseFileName : String) (t : Table)
    (h1 : note.type = "text") (h2 : format = "markdown") :
    ∃ c, jsEndsWith (jsToLower c) "md" = true
      ∧ ((getDataFileName format note baseFileName t).1 = c
         ∨ ∃ k, (getDataFileName format note baseFileName t).1 = c ++ "_" ++ Nat.repr k) := by
  subst h2
  by_cases hb : jsEndsWith (jsToLower baseFileName) "md" = true
  · refine ⟨baseFileName, hb, ?_⟩
    have hshape := getUniqueFilename_shape t baseFileName
    simpa [getDataFileName, h1, hb] using hshape
  · refine ⟨baseFileName ++ "." ++ "md", ?_, ?_⟩
    · rw [jsToLower_append, show jsToLower "md" = "md" from rfl]
      exact jsEndsWith_append (jsToLower (baseFileName ++ ".")) "md"
    · have hshape := getUniqueFilename_shape t (baseFileName ++ "." ++ "md")
      simpa [getDataFileName, h1, hb] using hshape

/-- Witness for C9 at the concrete note `noteAmd`. -/
theorem claim_C9_witness :
    noteAmd.type = "text"
    ∧ ∃ c, jsEndsWith (jsToLower c) "md" = true
        ∧ ((getDataFileName "markdown" noteAmd "amd" []).1 = c
           ∨ ∃ k, (getDataFileName "markdown" noteAmd "amd" []).1 = c ++ "_" ++ Nat.repr k) :=
  ⟨rfl, claim_C9 "markdown" noteAmd "amd" [] rfl rfl⟩

/-- C4 (counterexample): the root of `dbSlash` is titled "a/b"; its assigned
dirFileName is the raw "a/b", while the sanitized baseFileName uniquified
against the same (empty) sibling table would be "ab": sanitization is NOT
applied to non-clone names. -/
theorem claim_C4_counterexample :
    rootNames dbSlash "markdown" 10 brSlash = (none, some "a/b")
    ∧ (getUniqueFilename [] (sanitize (baseFileNameOf brSlash.pfx "a/b"))).1 = "ab"
    ∧ "a/b" ≠ "ab" := by
  refine ⟨rfl, rfl, by decide⟩

/-- C4 (amended): for every non-clone note occurrence with children, the
assigned dirFileName is the UNsanitized baseFileName (prefix plus title)
uniquified among the sibling names: it is that baseFileName itself or the
baseFileName with a numeric collision suffix appended; the sanitizer is not
applied on this path (it is applied only to clone names). -/
theorem claim_C4 (db : List Note) (format : String) (fuel : Nat) (branch : Branch)
    (t : Table) (ids : List String) (m : NoteMeta) (t2 : Table) (ids2 : List String)
    (note : Note) (d : String)
    (hrun : getNoteB db format (fuel + 1) branch t ids = .ok (some m, t2, ids2))
    (hfind : findNote db branch.noteId = some note)
    (hdir : m.dirFileNameOf = some d) :
    d = baseFileNameOf branch.pfx note.title
    ∨ ∃ k, d = baseFileNameOf branch.pfx note.title ++ "_" ++ Nat.repr k := by
  simp only [getNoteB, hfind] at hrun
  split at hrun
  · -- excluded: returns none, contradicting some m
    simp at hrun
  · split at hrun
    · -- clone stub: no dirFileName
      simp only [Except.ok.injEq, Prod.mk.injEq, Option.some.injEq] at hrun
      obtain ⟨rfl, -, -⟩ := hrun
      simp [NoteMeta.dirFileNameOf] at hdir
    · split at hrun
      · -- no child branches: dirFileName is none
        simp only [Except.ok.injEq, Prod.mk.injEq, Option.some.injEq] at hrun
        obtain ⟨rfl, -, -⟩ := hrun
        simp [NoteMeta.dirFileNameOf] at hdir
      · split at hrun
        · -- child recursion failed: no ok result
          simp at hrun
        · -- children built: dirFileName is the uniquified baseFileName
          simp only [Except.ok.injEq, Prod.mk.injEq, Option.some.injEq] at hrun
          obtain ⟨rfl, -, -⟩ := hrun
          simp only [NoteMeta.dirFileNameOf, Option.some.injEq] at hdir
          subst hdir
          exact getUniqueFilename_shape _ (baseFileNameOf branch.pfx note.title)

/-- Witness for C4 at the concrete database `dbSlash`. -/
theorem claim_C4_witness :
    getNoteB dbSlash "markdown" (9 + 1) brSlash [] [] = .ok (some mSlash, tSlash, idsSlash)
    ∧ findNote dbSlash brSlash.noteId
        = some ⟨"idS", "a/b", "text", "text/html", "", [], [], [], [⟨"idG", none, false⟩]⟩
    ∧ mSlash.dirFileNameOf = some "a/b"
    ∧ ("a/b" = baseFileNameOf brSlash.pfx "a/b"
       ∨ ∃ k, "a/b" = baseFileNameOf brSlash.pfx "a/b" ++ "_" ++ Nat.repr k) := by
  refine ⟨rfl, rfl, rfl, ?_⟩
  exact claim_C4 dbSlash "markdown" 9 brSlash [] [] mSlash tSlash idsSlash
    ⟨"idS", "a/b", "text", "text/html", "", [], [], [], [⟨"idG", none, false⟩]⟩
    "a/b" rfl rfl rfl

/-- Reading back the key just assigned in the path map yields the assigned
value. -/
theorem npGet_npSet_self (np : PathMap) (k : String) (v : String) :
    npGet (npSet np k v) k = v := by
  induction np with
  | nil => simp [npGet, npSet]
  | cons kv rest ih =>
    by_cases h : kv.1 = k
    · simp [npGet, npSet, h]
    · simp only [npSet, beq_iff_eq, h, if_false]
      simpa [npGet, h] using ih

/-- Assigning one key in the path map leaves every other key unchanged. -/
theorem npGet_npSet_ne (np : PathMap) (k v x : String) (h : x ≠ k) :
    npGet (npSet np k v) x = npGet np x := by
  have hk0 : ¬ (k = x) := fun hc => h (Eq.symm hc)
  induction np with
  | nil => simp [npGet, npSet, hk0]
  | cons kv rest ih =>
    by_cases hk : kv.1 = k
    · subst hk
      simp [npGet, npSet, hk0]
    · simp only [npSet, beq_iff_eq, hk, if_false]
      by_cases hx : kv.1 = x
      · simp [npGet, hx]
      · simpa [npGet, hx] using ih

mutual
/-- The emitter changes the path map only at the ids of the full nodes it
visits: any other id keeps its previous path. -/
theorem saveNote_stable (db : List Note) (pp td : String → String) :
    ∀ (m : NoteMeta) (path : String) (np : PathMap) (es : List Entry) (np2 : PathMap),
      saveNote db pp td m path np = .ok (es, np2) →
      ∀ x, x ∉ fullIdsOf m → npGet np2 x = npGet np x
  | .clone noteId pfx d, path, np, es, np2, hrun, x, _hx => by
    simp only [saveNote, Except.ok.injEq, Prod.mk.injEq] at hrun
    rw [hrun.2]
  | .full noteId title pfx isExpanded type mime attributes links format dataFileName dirFileName children,
      path, np, es, np2, hrun, x, hx => by
    simp only [saveNote] at hrun
    split at hrun
    · exact absurd hrun (by simp)
    · rename_i note hfind
      simp only [fullIdsOf, List.mem_cons, not_or] at hx
      obtain ⟨hxne, hxnotin⟩ := hx
      split at hrun
      · simp only [Except.ok.injEq, Prod.mk.injEq] at hrun
        rw [← hrun.2]
        exact npGet_npSet_ne np noteId _ x hxne
      · split at hrun
        · exact absurd hrun (by simp)
        · rename_i entries npc hsc
          simp only [Except.ok.injEq, Prod.mk.injEq] at hrun
          rw [← hrun.2]
          rw [saveChildren_stable db pp td _ _ _ _ _ hsc x hxnotin]
          exact npGet_npSet_ne np noteId _ x hxne

/-- `saveNote_stable` over a child list. -/
theorem saveChildren_stable (db : List Note) (pp td : String → String) :
    ∀ (ms : List NoteMeta) (path : String) (np : PathMap) (es : List Entry) (np2 : PathMap),
      saveChildren db pp td ms path np = .ok (es, np2) →
      ∀ x, x ∉ fullIdsChildren ms → npGet np2 x = npGet np x
  | [], path, np, es, np2, hrun, x, _hx => by
    simp only [saveChildren, Except.ok.injEq, Prod.mk.injEq] at hrun
    rw [hrun.2]
  | m :: ms, path, np, es, np2, hrun, x, hx => by
    simp only [saveChildren] at hrun
    simp only [fullIdsChildren, List.mem_append, not_or] at hx
    obtain ⟨hx1, hx2⟩ := hx
    split at hrun
    · exact absurd hrun (by simp)
    · rename_i es1 np1 h1
      split at hrun
      · exact absurd hrun (by simp)
      · rename_i es2 npc h2
        simp only [Except.ok.injEq, Prod.mk.injEq] at hrun
        rw [← hrun.2]
        rw [saveChildren_stable db pp td ms _ _ _ _ h2 x hx2]
        exact saveNote_stable db pp td m _ _ _ _ h1 x hx1
end

/-- C10: when the emitter processes the first (non-clone) occurrence of a
note, the path it records for the note id — the path later clone stubs embed
in their placeholder — is the data file path when a data file name is
present, and otherwise the directory path built from dirFileName. The
hypothesis that the note id does not recur among the full descendants holds
for every manifest the builder produces, since each id is registered at most
once. -/
theorem claim_C10 (db : List Note) (pp td : String → String)
    (noteId title : String) (pfx : Option String) (isExpanded : Bool) (type mime : String)
    (attributes : List Attribute) (links : List Link) (format : Option String)
    (dataFileName : Option String) (dirName : String) (children : List NoteMeta)
    (path : String) (np : PathMap) (es : List Entry) (np2 : PathMap)
    (hrun : saveNote db pp td
        (.full noteId title pfx isExpanded type mime attributes links format dataFileName
          (some dirName) children) path np = .ok (es, np2))
    (hnotin : noteId ∉ fullIdsChildren children) :
    (dataFileName = none → npGet np2 noteId = path ++ "/" ++ dirName)
    ∧ (∀ d, dataFileName = some d → d ≠ "" → npGet np2 noteId = path ++ "/" ++ d) := by
  have hbase : npGet np2 noteId = path ++ "/" ++ jsNameOr dataFileName (some dirName) := by
    simp only [saveNote] at hrun
    split at hrun
    · exact absurd hrun (by simp)
    · rename_i note hfind
      split at hrun
      · simp only [Except.ok.injEq, Prod.mk.injEq] at hrun
        rw [← hrun.2]
        exact npGet_npSet_self np noteId _
      · split at hrun
        · exact absurd hrun (by simp)
        · rename_i entries npc hsc
          simp only [Except.ok.injEq, Prod.mk.injEq] at hrun
          rw [← hrun.2]
          rw [saveChildren_stable db pp td _ _ _ _ _ hsc noteId hnotin]
          exact npGet_npSet_self np noteId _
  constructor
  · intro hnone
    subst hnone
    simpa [jsNameOr] using hbase
  · intro d hsome hne
    subst hsome
    simpa [jsNameOr, hne] using hbase

/-- Witness for C10 at the concrete nodes `metaSave` (no data file name) and
`metaSaveData` (data file name present). -/
theorem claim_C10_witness :
    ("idP" ∉ fullIdsChildren [NoteMeta.clone "idQ" none "q.clone"])
    ∧ npGet [("idP", "/P")] "idP" = "" ++ "/" ++ "P"
    ∧ npGet [("idP", "/P.md")] "idP" = "" ++ "/" ++ "P.md" := by
  refine ⟨by decide, ?_, ?_⟩
  · exact (claim_C10 dbSave (fun s => s) (fun s => s) "idP" "P" none false "text" "text/html"
      [] [] (some "markdown") none "P" [NoteMeta.clone "idQ" none "q.clone"] "" []
      [Entry.dirEntry "/P", Entry.fileEntry "/P/q.clone" 28 "Note is present at undefined"]
      [("idP", "/P")] rfl (by decide)).1 rfl
  · exact (claim_C10 dbSave (fun s => s) (fun s => s) "idP" "P" none false "text" "text/html"
      [] [] (some "markdown") (some "P.md") "P" [NoteMeta.clone "idQ" none "q.clone"] "" []
      [Entry.fileEntry "/P.md" 0 "", Entry.dirEntry "/P",
       Entry.fileEntry "/P/q.clone" 28 "Note is present at undefined"]
      [("idP", "/P.md")] rfl (by decide)).2 "P.md" rfl (by decide)

/-- Filtering twice with a weaker predicate first is the same as filtering
once with the stronger predicate. -/
theorem filter_subsumes {α} (p q : α → Bool) (l : List α) (h : ∀ a, q a = true → p a = true) :
    (l.filter p).filter q = l.filter q := by
  induction l with
  | nil => rfl
  | cons a t ih =>
    cases hq : q a with
    | true =>
      have hp := h a hq
      simp [List.filter_cons, hp, hq, ih]
    | false =>
      cases hp : p a with
      | true => simp [List.filter_cons, hp, hq, ih]
      | false => simp [List.filter_cons, hp, hq, ih]

mutual
/-- The filter changes no field other than the attribute and link lists. -/
theorem filterMeta_strip (ids : List String) :
    ∀ m : NoteMeta, stripRefs (filterMeta ids m) = stripRefs m
  | .clone _ _ _ => rfl
  | .full _ _ _ _ _ _ _ _ _ _ _ children => by
    simp only [filterMeta, stripRefs]
    rw [filterChildren_strip ids children]

/-- `filterMeta_strip` over a child list. -/
theorem filterChildren_strip (ids : List String) :
    ∀ ms : List NoteMeta, stripRefsChildren (filterChildren ids ms) = stripRefsChildren ms
  | [] => rfl
  | m :: ms => by
    simp only [filterChildren, stripRefsChildren]
    rw [filterMeta_strip ids m, filterChildren_strip ids ms]
end

mutual
/-- After filtering, every link target and relation attribute value in every
node of the tree is a registered id. -/
theorem filterMeta_closed (ids : List String) :
    ∀ m : NoteMeta, ∀ n ∈ (filterMeta ids m).nodesList,
      (∀ l ∈ n.linksOf, l.targetNoteId ∈ ids)
      ∧ (∀ a ∈ n.attributesOf, a.type = "relation" → a.value ∈ ids)
  | .clone nid p d, n, hn => by
    simp only [filterMeta, NoteMeta.nodesList, List.mem_singleton] at hn
    subst hn
    refine ⟨fun l hl => ?_, fun a ha _ => ?_⟩
    · simp [NoteMeta.linksOf] at hl
    · simp [NoteMeta.attributesOf] at ha
  | .full nid t p e ty mi attrs links f dn dr children, n, hn => by
    simp only [filterMeta, NoteMeta.nodesList, List.mem_cons] at hn
    rcases hn with rfl | hn
    · refine ⟨fun l hl => ?_, fun a ha hrel => ?_⟩
      · simp only [NoteMeta.linksOf] at hl
        exact List.elem_iff.mp (List.mem_filter.mp hl).2
      · simp only [NoteMeta.attributesOf] at ha
        have hp := (List.mem_filter.mp ha).2
        simp only [hrel, beq_iff_eq, Bool.not_true, Bool.false_or] at hp
        exact List.elem_iff.mp hp
    · exact filterChildren_closed ids children n hn

/-- `filterMeta_closed` over a child list. -/
theorem filterChildren_closed (ids : List String) :
    ∀ ms : List NoteMeta, ∀ n ∈ nodesChildren (filterChildren ids ms),
      (∀ l ∈ n.linksOf, l.targetNoteId ∈ ids)
      ∧ (∀ a ∈ n.attributesOf, a.type = "relation" → a.value ∈ ids)
  | [], n, hn => by simp [filterChildren, nodesChildren] at hn
  | m :: ms, n, hn => by
    simp only [filterChildren, nodesChildren, List.mem_append] at hn
    rcases hn with hn | hn
    · exact filterMeta_closed ids m n hn
    · exact filterChildren_closed ids ms n hn
end

mutual
/-- Filtering keeps every non-relation attribute of every node, in order. -/
theorem filterMeta_nonrel (ids : List String) :
    ∀ m : NoteMeta,
      (filterMeta ids m).nodesList.map
          (fun n => n.attributesOf.filter (fun a => !(a.type == "relation")))
        = m.nodesList.map (fun n => n.attributesOf.filter (fun a => !(a.type == "relation")))
  | .clone _ _ _ => rfl
  | .full nid t p e ty mi attrs links f dn dr children => by
    simp only [filterMeta, NoteMeta.nodesList, List.map_cons]
    rw [filterChildren_nonrel ids children]
    congr 1
    simp only [NoteMeta.attributesOf]
    exact filter_subsumes _ _ attrs (fun a ha => by simp_all)

/-- `filterMeta_nonrel` over a child list. -/
theorem filterChildren_nonrel (ids : List String) :
    ∀ ms : List NoteMeta,
      (nodesChildren (filterChildren ids ms)).map
          (fun n => n.attributesOf.filter (fun a => !(a.type == "relation")))
        = (nodesChildren ms).map (fun n => n.attributesOf.filter (fun a => !(a.type == "relation")))
  | [] => rfl
  | m :: ms => by
    simp only [filterChildren, nodesChildren, List.map_append]
    rw [filterMeta_nonrel ids m, filterChildren_nonrel ids ms]
end

/-- C5: after the Reference Filter pass, every surviving link target and
every surviving relation-attribute value in the tree is a registered id (a
key of the noteId-to-metadata map), every non-relation attribute of every
node survives in order, and every other metadata field of every node is
unchanged. -/
theorem claim_C5 (ids : List String) (m : NoteMeta) :
    (∀ n ∈ (filterMeta ids m).nodesList, ∀ l ∈ n.linksOf, l.targetNoteId ∈ ids)
    ∧ (∀ n ∈ (filterMeta ids m).nodesList, ∀ a ∈ n.attributesOf,
        a.type = "relation" → a.value ∈ ids)
    ∧ ((filterMeta ids m).nodesList.map
          (fun n => n.attributesOf.filter (fun a => !(a.type == "relation")))
        = m.nodesList.map (fun n => n.attributesOf.filter (fun a => !(a.type == "relation"))))
    ∧ stripRefs (filterMeta ids m) = stripRefs m :=
  ⟨fun n hn => (filterMeta_closed ids m n hn).1,
   fun n hn => (filterMeta_closed ids m n hn).2,
   filterMeta_nonrel ids m,
   filterMeta_strip ids m⟩

/-- A filter with a stronger predicate keeps at most as many elements. -/
theorem length_filter_mono {α} (l : List α) (p q : α → Bool) (h : ∀ a, p a = true → q a = true) :
    (l.filter p).length ≤ (l.filter q).length := by
  induction l with
  | nil => simp
  | cons b t ih =>
    cases hp : p b with
    | true =>
      have hq := h b hp
      simp only [List.filter_cons, hp, hq, if_true, List.length_cons]
      omega
    | false =>
      cases hq : q b with
      | true =>
        simp only [List.filter_cons, hp, hq, if_true, Bool.false_eq_true, if_false,
          List.length_cons]
        omega
      | false =>
        simp only [List.filter_cons, hp, hq, Bool.false_eq_true, if_false]
        exact ih

/-- A filter with a stronger predicate keeps strictly fewer elements when
some member satisfies only the weaker one. -/
theorem length_filter_lt {α} (l : List α) (p q : α → Bool) (h : ∀ a, p a = true → q a = true)
    (a : α) (ha : a ∈ l) (hqa : q a = true) (hpa : p a = false) :
    (l.filter p).length < (l.filter q).length := by
  induction l with
  | nil => cases ha
  | cons b t ih =>
    rcases List.mem_cons.mp ha with rfl | hat
    · simp only [List.filter_cons, hpa, hqa, if_true, Bool.false_eq_true, if_false,
        List.length_cons]
      have := length_filter_mono t p q h
      omega
    · cases hp : p b with
      | true =>
        have hq := h b hp
        simp only [List.filter_cons, hp, hq, if_true, List.length_cons]
        have := ih hat
        omega
      | false =>
        cases hq : q b with
        | true =>
          simp only [List.filter_cons, hp, hq, if_true, Bool.false_eq_true, if_false,
            List.length_cons]
          have := ih hat
          omega
        | false =>
          simp only [List.filter_cons, hp, hq, Bool.false_eq_true, if_false]
          exact ih hat

/-- Extending the registry key list cannot increase the count of
unregistered notes. -/
theorem newNotes_le (db : List Note) (ids ids2 : List String)
    (h : ∀ x, x ∈ ids → x ∈ ids2) : newNotes db ids2 ≤ newNotes db ids := by
  apply length_filter_mono
  intro n hn
  simp only [decide_eq_true_eq] at hn ⊢
  exact fun hc => hn (h n.noteId hc)

/-- Registering a database note that was not yet registered strictly
decreases the count of unregistered notes. -/
theorem newNotes_decrease (db : List Note) (ids : List String) (note : Note)
    (hmem : note ∈ db) (hni : ids.contains note.noteId = false) :
    newNotes db (ids ++ [note.noteId]) < newNotes db ids := by
  have hni2 : List.elem note.noteId ids = false := hni
  have hmono : ∀ n : Note, decide (n.noteId ∉ ids ++ [note.noteId]) = true →
      decide (n.noteId ∉ ids) = true := by
    intro n hn
    simp only [decide_eq_true_eq] at hn ⊢
    exact fun hc => hn (List.mem_append_left _ hc)
  have hq : decide (note.noteId ∉ ids) = true := by
    simp only [decide_eq_true_eq]
    intro hc
    have helem := List.elem_iff.mpr hc
    rw [helem] at hni2
    cases hni2
  have hp : decide (note.noteId ∉ ids ++ [note.noteId]) = false := by
    simp only [decide_eq_false_iff_not, Decidable.not_not]
    exact List.mem_append_right _ (List.mem_singleton.mpr rfl)
  exact length_filter_lt db _ _ hmono note hmem hq hp

/-- The child loop only extends the registry key list, provided the
per-branch processor does. -/
theorem goChildren_subset
    (f : Branch → Table → List String → Except ExpErr (Option NoteMeta × Table × List String))
    (hf : ∀ b t ids m? t2 ids2, f b t ids = .ok (m?, t2, ids2) → ∀ x, x ∈ ids → x ∈ ids2) :
    ∀ bs t ids ms t2 ids2, goChildren f bs t ids = .ok (ms, t2, ids2) →
      ∀ x, x ∈ ids → x ∈ ids2 := by
  intro bs
  induction bs with
  | nil =>
    intro t ids ms t2 ids2 h x hx
    simp only [goChildren, Except.ok.injEq, Prod.mk.injEq] at h
    rw [← h.2.2]
    exact hx
  | cons b bs ih =>
    intro t ids ms t2 ids2 h x hx
    simp only [goChildren] at h
    split at h
    · exact absurd h (by simp)
    · rename_i m? t1 ids1 h1
      split at h
      · exact absurd h (by simp)
      · rename_i ms2 t2x ids2x h2
        simp only [Except.ok.injEq, Prod.mk.injEq] at h
        rw [← h.2.2]
        exact ih t1 ids1 ms2 t2x ids2x h2 x (hf b t ids m? t1 ids1 h1 x hx)

/-- The builder only extends the registry key list. -/
theorem getNoteB_subset (db : List Note) (format : String) :
    ∀ fuel branch t ids m? t2 ids2,
      getNoteB db format fuel branch t ids = .ok (m?, t2, ids2) → ∀ x, x ∈ ids → x ∈ ids2 := by
  intro fuel
  induction fuel with
  | zero =>
    intro branch t ids m? t2 ids2 h
    simp [getNoteB] at h
  | succ fuel ih =>
    intro branch t ids m? t2 ids2 h x hx
    simp only [getNoteB] at h
    split at h
    · exact absurd h (by simp)
    · rename_i note hfind
      split at h
      · simp only [Except.ok.injEq, Prod.mk.injEq] at h
        rw [← h.2.2]
        exact hx
      · split at h
        · simp only [Except.ok.injEq, Prod.mk.injEq] at h
          rw [← h.2.2]
          exact hx
        · split at h
          · simp only [Except.ok.injEq, Prod.mk.injEq] at h
            rw [← h.2.2]
            exact List.mem_append_left _ hx
          · split at h
            · exact absurd h (by simp)
            · rename_i children t3 ids3 hgo
              simp only [Except.ok.injEq, Prod.mk.injEq] at h
              rw [← h.2.2]
              exact goChildren_subset (getNoteB db format fuel) ih _ _ _ children t3 ids3 hgo
                x (List.mem_append_left _ hx)

/-- The child loop never runs out of fuel when the per-level bound holds:
each branch is processed with the same fuel, and the registry only grows
along the loop, so the bound is preserved. -/
theorem goChildren_noFuel (db : List Note) (format : String) (fuel : Nat)
    (hok : ∀ b t ids, newNotes db ids < fuel →
      getNoteB db format fuel b t ids ≠ .error .outOfFuel) :
    ∀ bs t ids, newNotes db ids < fuel →
      goChildren (getNoteB db format fuel) bs t ids ≠ .error .outOfFuel := by
  intro bs
  induction bs with
  | nil =>
    intro t ids hlt h
    simp [goChildren] at h
  | cons b bs ih =>
    intro t ids hlt h
    simp only [goChildren] at h
    split at h
    · rename_i e h1
      cases h
      exact hok b t ids hlt h1
    · rename_i m? t1 ids1 h1
      split at h
      · rename_i e h2
        cases h
        have hsub := getNoteB_subset db format fuel b t ids m? t1 ids1 h1
        have hle := newNotes_le db ids ids1 hsub
        exact ih t1 ids1 (by omega) h2
      · exact absurd h (by simp)

/-- The builder never runs out of fuel when the fuel exceeds the number of
unregistered database notes: each full visit registers a fresh id before
recursing, so the bound strictly decreases with depth, and a re-entered note
resolves as a clone without recursion. -/
theorem getNoteB_noFuel (db : List Note) (format : String) :
    ∀ fuel branch t ids, newNotes db ids < fuel →
      getNoteB db format fuel branch t ids ≠ .error .outOfFuel := by
  intro fuel
  induction fuel with
  | zero =>
    intro branch t ids hlt h
    omega
  | succ fuel ih =>
    intro branch t ids hlt h
    simp only [getNoteB] at h
    split at h
    · simp at h
    · rename_i note hfind
      split at h
      · simp at h
      · rename_i hexcl
        split at h
        · simp at h
        · rename_i hclone
          split at h
          · simp at h
          · split at h
            · rename_i e hgo
              cases h
              have hmem : note ∈ db := List.mem_of_find?_eq_some hfind
              have hni : ids.contains note.noteId = false := by
                simpa using hclone
              have hdec := newNotes_decrease db ids note hmem hni
              exact goChildren_noFuel db format fuel ih note.childBranches _ _ (by omega) hgo
            · simp at h

/-- C8: because each note is registered in the noteId-to-metadata map before
the builder recurses into its child branches, the build traversal never
exhausts a recursion budget exceeding the database size — on every finite
branch graph, cyclic ones included, the re-entered occurrence resolves as a
clone with no recursion instead of recursing forever. -/
theorem claim_C8 (db : List Note) (format : String) (fuel : Nat) (branch : Branch)
    (hfuel : db.length < fuel) :
    buildManifest db format fuel branch ≠ .error .outOfFuel := by
  have hle : newNotes db [] ≤ db.length := List.length_filter_le _ _
  exact getNoteB_noFuel db format fuel branch [] [] (by omega)

/-- Witness for C8 at the concrete cyclic database `dbCycle` (a note that is
its own child). -/
theorem claim_C8_witness :
    dbCycle.length < 3 ∧ buildManifest dbCycle "markdown" 3 brCycle ≠ .error .outOfFuel :=
  ⟨by decide, claim_C8 dbCycle "markdown" 3 brCycle (by decide)⟩

end TarExport
